import Mathlib

/-!
Verification of the pipe combinator core and I/O helpers of the
`download_pipelines` repository, shallowly embedded from
`pipe_utils.py`, `uncompress_utils.py` and `connection_utils.py`.

Python values flowing through pipelines are modelled by the inductive
type `PyVal`: integers, strings (atomic scalars, covering `str` and
`bytes`), the `None` object, tuples, lists, sets and dicts.  Python
sets and dicts are modelled with element / entry lists; iteration
order of a set is abstracted as the order of that list.
-/

inductive PyVal where
  | int (n : Int)
  | str (s : String)
  | pynone
  | tuple (xs : List PyVal)
  | list (xs : List PyVal)
  | set (xs : List PyVal)
  | dict (kvs : List (PyVal × PyVal))

mutual
/-- Hashability of a Python value: ints, strings and None are hashable,
a tuple is hashable when all of its components are, and lists, sets and
dicts are unhashable.  Mirrors what `hash()` accepts in CPython for the
shapes `safe_iter` can produce. -/
def hashable : PyVal → Bool
  | .int _ => true
  | .str _ => true
  | .pynone => true
  | .tuple xs => hashableList xs
  | .list _ => false
  | .set _ => false
  | .dict _ => false
termination_by v => sizeOf v

def hashableList : List PyVal → Bool
  | [] => true
  | x :: xs => hashable x && hashableList xs
termination_by l => sizeOf l
end

mutual
/-- Embedding of `safe_iter` (pipe_utils.py lines 96-105): a mapping is
rebuilt with each value recursively normalized; a set-like collection is
rebuilt as a set of recursively normalized elements when they are all
hashable, falling through to the list branch otherwise (the `TypeError`
of the set comprehension is caught and control falls to the final list
comprehension); any other iterable except `str`/`bytes` becomes a list
of recursively normalized elements; everything else is returned
unchanged. -/
def safe_iter : PyVal → PyVal
  | .dict kvs => .dict (safe_iterKVs kvs)
  | .set xs =>
      if hashableList (safe_iterList xs) then .set (safe_iterList xs)
      else .list (safe_iterList xs)
  | .list xs => .list (safe_iterList xs)
  | .tuple xs => .list (safe_iterList xs)
  | .int n => .int n
  | .str s => .str s
  | .pynone => .pynone
termination_by v => sizeOf v

def safe_iterList : List PyVal → List PyVal
  | [] => []
  | x :: xs => safe_iter x :: safe_iterList xs
termination_by l => sizeOf l

def safe_iterKVs : List (PyVal × PyVal) → List (PyVal × PyVal)
  | [] => []
  | (k, v) :: kvs => (k, safe_iter v) :: safe_iterKVs kvs
termination_by l => sizeOf l
end

theorem safe_iterList_eq_map (xs : List PyVal) :
    safe_iterList xs = xs.map safe_iter := by
  induction xs with
  | nil => simp [safe_iterList]
  | cons x xs ih => simp [safe_iterList, ih]

theorem safe_iterKVs_eq_map (kvs : List (PyVal × PyVal)) :
    safe_iterKVs kvs = kvs.map (fun kv => (kv.1, safe_iter kv.2)) := by
  induction kvs with
  | nil => simp [safe_iterKVs]
  | cons kv kvs ih => obtain ⟨k, v⟩ := kv; simp [safe_iterKVs, ih]

theorem hashableList_eq_all (xs : List PyVal) :
    hashableList xs = xs.all hashable := by
  induction xs with
  | nil => simp [hashableList]
  | cons x xs ih => simp [hashableList, ih]

/-- Strong induction principle for `PyVal` that hands down the inductive
hypothesis for every member of a container. -/
theorem PyVal.recMem {motive : PyVal → Prop}
    (hint : ∀ n, motive (PyVal.int n))
    (hstr : ∀ s, motive (PyVal.str s))
    (hnone : motive PyVal.pynone)
    (htuple : ∀ xs, (∀ x ∈ xs, motive x) → motive (PyVal.tuple xs))
    (hlist : ∀ xs, (∀ x ∈ xs, motive x) → motive (PyVal.list xs))
    (hset : ∀ xs, (∀ x ∈ xs, motive x) → motive (PyVal.set xs))
    (hdict : ∀ kvs, (∀ kv ∈ kvs, motive kv.2) → motive (PyVal.dict kvs)) :
    ∀ v, motive v
  | .int n => hint n
  | .str s => hstr s
  | .pynone => hnone
  | .tuple xs => htuple xs (fun x hx =>
      have h1 : sizeOf x < 1 + sizeOf xs := by
        have := List.sizeOf_lt_of_mem hx; omega
      PyVal.recMem hint hstr hnone htuple hlist hset hdict x)
  | .list xs => hlist xs (fun x hx =>
      have h1 : sizeOf x < 1 + sizeOf xs := by
        have := List.sizeOf_lt_of_mem hx; omega
      PyVal.recMem hint hstr hnone htuple hlist hset hdict x)
  | .set xs => hset xs (fun x hx =>
      have h1 : sizeOf x < 1 + sizeOf xs := by
        have := List.sizeOf_lt_of_mem hx; omega
      PyVal.recMem hint hstr hnone htuple hlist hset hdict x)
  | .dict kvs => hdict kvs (fun kv hkv =>
      have h1 : sizeOf kv.2 < 1 + sizeOf kvs := by
        have h2 := List.sizeOf_lt_of_mem hkv
        obtain ⟨k, v⟩ := kv
        simp at h2 ⊢
        omega
      PyVal.recMem hint hstr hnone htuple hlist hset hdict kv.2)
termination_by v => sizeOf v
decreasing_by all_goals (simp_wf; omega)

theorem sizeOf_safe_iterList_of (xs : List PyVal)
    (h : ∀ x ∈ xs, sizeOf (safe_iter x) = sizeOf x) :
    sizeOf (safe_iterList xs) = sizeOf xs := by
  induction xs with
  | nil => simp [safe_iterList]
  | cons x xs ih =>
      have hx := h x (by simp)
      have hxs := ih (fun y hy => h y (by simp [hy]))
      simp [safe_iterList]
      omega

theorem sizeOf_safe_iterKVs_of (kvs : List (PyVal × PyVal))
    (h : ∀ kv ∈ kvs, sizeOf (safe_iter kv.2) = sizeOf kv.2) :
    sizeOf (safe_iterKVs kvs) = sizeOf kvs := by
  induction kvs with
  | nil => simp [safe_iterKVs]
  | cons kv kvs ih =>
      have hx := h kv (by simp)
      have hxs := ih (fun y hy => h y (by simp [hy]))
      obtain ⟨k, v⟩ := kv
      simp [safe_iterKVs] at hx ⊢
      omega

/-- Normalization never changes the size of a value: every branch of
`safe_iter` rebuilds the same skeleton (with tuples and fallen-through
sets re-tagged as lists). -/
theorem sizeOf_safe_iter (v : PyVal) : sizeOf (safe_iter v) = sizeOf v := by
  induction v using PyVal.recMem with
  | hint n => simp [safe_iter]
  | hstr s => simp [safe_iter]
  | hnone => simp [safe_iter]
  | htuple xs ih => simp [safe_iter, sizeOf_safe_iterList_of xs ih]
  | hlist xs ih => simp [safe_iter, sizeOf_safe_iterList_of xs ih]
  | hset xs ih =>
      rw [safe_iter]
      by_cases hh : hashableList (safe_iterList xs) = true
      · simp [hh, sizeOf_safe_iterList_of xs ih]
      · simp only [Bool.not_eq_true] at hh
        simp [hh, sizeOf_safe_iterList_of xs ih]
  | hdict kvs ih => simp [safe_iter, sizeOf_safe_iterKVs_of kvs ih]

/-- A Boolean shape test used by `flatten` for `isinstance(it, list)`. -/
def isList : PyVal → Bool
  | .list _ => true
  | _ => false

mutual
/-- Embedding of `flatten` (pipe_utils.py lines 130-137): normalize the
input with `safe_iter`, then dispatch on the shape of the normalized
value (`flattenN`). -/
def flatten (v : PyVal) : PyVal := flattenN (safe_iter v)
termination_by 2 * sizeOf v + 1
decreasing_by simp_wf; rw [sizeOf_safe_iter]; omega

/-- Dispatch of `flatten` on the already-normalized value: a dict maps
`flatten` over its values; a non-empty list whose sole element is a list
recurses into that element; any other non-empty list maps `flatten` over
its elements; everything else (empty list, set, scalar) is returned
unchanged. -/
def flattenN : PyVal → PyVal
  | .dict kvs => .dict (flattenKVs kvs)
  | .list (x :: xs) =>
      if xs.isEmpty && isList x then flatten x
      else .list (flattenList (x :: xs))
  | w => w
termination_by w => 2 * sizeOf w
decreasing_by all_goals (simp_wf <;> omega)

def flattenList : List PyVal → List PyVal
  | [] => []
  | x :: xs => flatten x :: flattenList xs
termination_by l => 2 * sizeOf l
decreasing_by all_goals (simp_wf <;> omega)

def flattenKVs : List (PyVal × PyVal) → List (PyVal × PyVal)
  | [] => []
  | (k, v) :: kvs => (k, flatten v) :: flattenKVs kvs
termination_by l => 2 * sizeOf l
decreasing_by all_goals (simp_wf <;> omega)
end

theorem flattenList_eq_map (xs : List PyVal) :
    flattenList xs = xs.map flatten := by
  induction xs with
  | nil => simp [flattenList]
  | cons x xs ih => simp [flattenList, ih]

theorem flattenKVs_eq_map (kvs : List (PyVal × PyVal)) :
    flattenKVs kvs = kvs.map (fun kv => (kv.1, flatten kv.2)) := by
  induction kvs with
  | nil => simp [flattenKVs]
  | cons kv kvs ih => obtain ⟨k, v⟩ := kv; simp [flattenKVs, ih]

/-- Normalization is idempotent: `safe_iter` output is a fixed point of
`safe_iter`. -/
theorem safe_iter_idem (v : PyVal) : safe_iter (safe_iter v) = safe_iter v := by
  induction v using PyVal.recMem with
  | hint n => simp [safe_iter]
  | hstr s => simp [safe_iter]
  | hnone => simp [safe_iter]
  | htuple xs ih =>
      have hmap : (xs.map safe_iter).map safe_iter = xs.map safe_iter := by
        rw [List.map_map]
        exact List.map_congr_left (fun x hx => ih x hx)
      simp [safe_iter, safe_iterList_eq_map, hmap]
  | hlist xs ih =>
      have hmap : (xs.map safe_iter).map safe_iter = xs.map safe_iter := by
        rw [List.map_map]
        exact List.map_congr_left (fun x hx => ih x hx)
      simp [safe_iter, safe_iterList_eq_map, hmap]
  | hset xs ih =>
      have hmap : (xs.map safe_iter).map safe_iter = xs.map safe_iter := by
        rw [List.map_map]
        exact List.map_congr_left (fun x hx => ih x hx)
      simp only [safe_iter, safe_iterList_eq_map]
      split
      next hh =>
        simp only [safe_iter, safe_iterList_eq_map, hmap]
        rw [if_pos hh]
      next hh =>
        simp only [safe_iter, safe_iterList_eq_map, hmap]
  | hdict kvs ih =>
      have hmap : (kvs.map (fun kv => (kv.1, safe_iter kv.2))).map
          (fun kv => (kv.1, safe_iter kv.2)) =
          kvs.map (fun kv => (kv.1, safe_iter kv.2)) := by
        rw [List.map_map]
        exact List.map_congr_left (fun kv hkv => by
          simp [Function.comp, ih kv hkv])
      simp [safe_iter, safe_iterKVs_eq_map, hmap]

theorem sizeOf_lt_of_safe_iter_list {v x : PyVal} {l : List PyVal}
    (hw : safe_iter v = PyVal.list l) (hx : x ∈ l) : sizeOf x < sizeOf v := by
  have h1 := List.sizeOf_lt_of_mem hx
  have h2 : sizeOf (PyVal.list l) = sizeOf v := by rw [← hw, sizeOf_safe_iter]
  simp at h2
  omega

theorem sizeOf_lt_of_safe_iter_dict {v : PyVal} {kvs : List (PyVal × PyVal)}
    {kv : PyVal × PyVal} (hw : safe_iter v = PyVal.dict kvs) (hkv : kv ∈ kvs) :
    sizeOf kv.2 < sizeOf v := by
  have h1 := List.sizeOf_lt_of_mem hkv
  have h2 : sizeOf (PyVal.dict kvs) = sizeOf v := by rw [← hw, sizeOf_safe_iter]
  obtain ⟨k, b⟩ := kv
  simp at h1 h2 ⊢
  omega

/-- The output of `flatten` is already normalized: `safe_iter` leaves it
unchanged. -/
theorem safe_iter_flatten (v : PyVal) : safe_iter (flatten v) = flatten v := by
  rw [flatten]
  rcases hw : safe_iter v with n | s | _ | xs | xs | xs | kvs
  case int => simp [flattenN, safe_iter]
  case str => simp [flattenN, safe_iter]
  case pynone => simp [flattenN, safe_iter]
  case tuple =>
      have : safe_iter (PyVal.tuple xs) = PyVal.tuple xs := by
        rw [← hw, safe_iter_idem]
      simp [flattenN, this]
  case set =>
      have : safe_iter (PyVal.set xs) = PyVal.set xs := by
        rw [← hw, safe_iter_idem]
      simp [flattenN, this]
  case dict =>
      simp only [flattenN, safe_iter, safe_iterKVs_eq_map, flattenKVs_eq_map,
        List.map_map]
      congr 1
      refine List.map_congr_left (fun kv hkv => ?_)
      have hlt : sizeOf kv.2 < sizeOf v := sizeOf_lt_of_safe_iter_dict hw hkv
      simp [Function.comp, safe_iter_flatten kv.2]
  case list =>
      match xs with
      | [] => simp [flattenN, safe_iter, safe_iterList]
      | x :: rest =>
          rw [flattenN]
          split
          next hc =>
              have hlt : sizeOf x < sizeOf v :=
                sizeOf_lt_of_safe_iter_list hw (by simp)
              exact safe_iter_flatten x
          next hc =>
              simp only [safe_iter, safe_iterList_eq_map, flattenList_eq_map,
                List.map_map]
              congr 1
              refine List.map_congr_left (fun y hy => ?_)
              have hlt : sizeOf y < sizeOf v :=
                sizeOf_lt_of_safe_iter_list hw hy
              simp [Function.comp, safe_iter_flatten y]
termination_by sizeOf v
decreasing_by all_goals (simp_wf; omega)

/-- Flattening already-normalized input gives the same result as
flattening the raw input, since `flatten` begins with `safe_iter`. -/
theorem flatten_safe_iter (v : PyVal) : flatten (safe_iter v) = flatten v := by
  rw [flatten, safe_iter_idem, ← flatten]

theorem list_map_eq_self {α : Type} {f : α → α} {l : List α}
    (h : l.map f = l) : ∀ x ∈ l, f x = x := by
  induction l with
  | nil => intro x hx; cases hx
  | cons y ys ih =>
      intro x hx
      simp only [List.map_cons, List.cons.injEq] at h
      rcases List.mem_cons.mp hx with hx | hx
      · rw [hx]; exact h.1
      · exact ih h.2 x hx

theorem safe_iter_fix_of_list {v : PyVal} {l : List PyVal}
    (hw : safe_iter v = PyVal.list l) : ∀ x ∈ l, safe_iter x = x := by
  have h1 : safe_iter (PyVal.list l) = PyVal.list l := by
    rw [← hw, safe_iter_idem]
  simp only [safe_iter, safe_iterList_eq_map, PyVal.list.injEq] at h1
  exact list_map_eq_self h1

/-- Flattening a normalized non-list value never produces a list. -/
theorem isList_flatten_eq_false {x : PyVal} (hfix : safe_iter x = x)
    (hnl : isList x = false) : isList (flatten x) = false := by
  rw [flatten, hfix]
  cases x with
  | int n => simp [flattenN, isList]
  | str s => simp [flattenN, isList]
  | pynone => simp [flattenN, isList]
  | tuple xs => simp [safe_iter] at hfix
  | list xs => simp [isList] at hnl
  | set xs => simp [flattenN, isList]
  | dict kvs => simp [flattenN, isList]

/-- Flattening is idempotent. -/
theorem flatten_flatten (v : PyVal) : flatten (flatten v) = flatten v := by
  have h0 : flatten (flatten v) = flattenN (flatten v) := by
    conv_lhs => rw [flatten]
    rw [safe_iter_flatten]
  rw [h0, flatten]
  rcases hw : safe_iter v with n | s | _ | xs | xs | xs | kvs
  case int => simp [flattenN]
  case str => simp [flattenN]
  case pynone => simp [flattenN]
  case tuple => simp [flattenN]
  case set => simp [flattenN]
  case dict =>
      simp only [flattenN, flattenKVs_eq_map, List.map_map, PyVal.dict.injEq]
      refine List.map_congr_left (fun kv hkv => ?_)
      have hlt : sizeOf kv.2 < sizeOf v := sizeOf_lt_of_safe_iter_dict hw hkv
      simp [Function.comp, flatten_flatten kv.2]
  case list =>
      match xs with
      | [] => simp [flattenN]
      | x :: rest =>
          have hfix := safe_iter_fix_of_list hw
          rw [flattenN]
          split
          next hc =>
              have hlt : sizeOf x < sizeOf v :=
                sizeOf_lt_of_safe_iter_list hw (by simp)
              have h1 : flattenN (flatten x) = flatten (flatten x) := by
                conv_rhs => rw [flatten]
                rw [safe_iter_flatten]
              rw [h1]
              exact flatten_flatten x
          next hc =>
              match rest, hc with
              | [], hc =>
                  have hnl : isList x = false := by
                    simp only [List.isEmpty_nil, Bool.true_and,
                      Bool.not_eq_true] at hc
                    exact hc
                  have hlt : sizeOf x < sizeOf v :=
                    sizeOf_lt_of_safe_iter_list hw (by simp)
                  have hfl : isList (flatten x) = false :=
                    isList_flatten_eq_false (hfix x (by simp)) hnl
                  have hlist : flattenList [x] = [flatten x] := by
                    simp [flattenList]
                  rw [hlist, flattenN]
                  simp [hfl, flattenList, flatten_flatten x]
              | y :: rest2, hc =>
                  have hlist : flattenList (x :: y :: rest2) =
                      flatten x :: flatten y :: rest2.map flatten := by
                    simp [flattenList, flattenList_eq_map]
                  rw [hlist, flattenN]
                  simp only [List.isEmpty_cons, Bool.false_and,
                    Bool.false_eq_true, if_false, flattenList,
                    flattenList_eq_map, List.map_map, PyVal.list.injEq,
                    List.cons.injEq]
                  simp only [List.map_cons, List.map_map, List.cons.injEq]
                  refine ⟨?_, ?_, ?_⟩
                  · have hlt : sizeOf x < sizeOf v :=
                      sizeOf_lt_of_safe_iter_list hw (by simp)
                    exact flatten_flatten x
                  · have hlt : sizeOf y < sizeOf v :=
                      sizeOf_lt_of_safe_iter_list hw (by simp)
                    exact flatten_flatten y
                  · refine List.map_congr_left (fun z hz => ?_)
                    have hlt : sizeOf z < sizeOf v :=
                      sizeOf_lt_of_safe_iter_list hw (by simp [hz])
                    simp [Function.comp, flatten_flatten z]
termination_by sizeOf v
decreasing_by all_goals (simp_wf; omega)

/-- Model of a Python callable used in pipelines: applied to a value it
either returns a value (`some`) or raises (`none`), and it reports how
many warnings were emitted during the call. -/
abbrev EFun : Type := PyVal → Option PyVal × Nat

/-- Embedding of `maybe` (pipe_utils.py lines 140-154): a raised fault
becomes a `None` result plus one extra warning; a normal result passes
through untouched. -/
def maybe (f : EFun) : EFun := fun v =>
  match f v with
  | (some r, w) => (some r, w)
  | (none, w) => (some PyVal.pynone, w + 1)

/-- Embedding of the `Pipe` class (pipe_utils.py lines 6-66): a pipe
stores one callable. -/
structure Pipe where
  function : EFun

/-- Embedding of `Pipe.__init__`: the constructor always stores the
fault-absorbed `maybe(function)`. -/
def Pipe.make (f : EFun) : Pipe := ⟨maybe f⟩

/-- Embedding of `Pipe.__ror__` (apply, pipe_utils.py lines 62-63):
`flatten(self.function(safe_iter(other)))`; a fault raised by the stored
function propagates out of the application. -/
def pipeApply (v : PyVal) (p : Pipe) : Option PyVal × Nat :=
  match p.function (safe_iter v) with
  | (some r, w) => (some (flatten r), w)
  | (none, w) => (none, w)

/-- Embedding of `Pipe.__or__` (compose, pipe_utils.py lines 59-60):
`Pipe(lambda it: it | self | other)` — a fresh constructor call around
the closure that applies `self` and feeds the result to `other`; a fault
raised by either application propagates out of the closure. -/
def Pipe.comp (p q : Pipe) : Pipe :=
  Pipe.make (fun it =>
    match pipeApply it p with
    | (some r, w1) =>
        match pipeApply r q with
        | (some s, w2) => (some s, w1 + w2)
        | (none, w2) => (none, w1 + w2)
    | (none, w1) => (none, w1))

/-- A pipe whose stored function never raises.  Every pipe the library
builds goes through `Pipe.__init__` and hence satisfies this. -/
def Pipe.Absorbed (p : Pipe) : Prop := ∀ v, ((p.function v).1).isSome

theorem maybe_isSome (f : EFun) (v : PyVal) : ((maybe f v).1).isSome := by
  rcases h : f v with ⟨o, w⟩
  cases o <;> simp [maybe, h]

theorem Pipe.make_absorbed (f : EFun) : (Pipe.make f).Absorbed :=
  fun v => maybe_isSome f v

theorem Pipe.comp_absorbed (p q : Pipe) : (p.comp q).Absorbed :=
  Pipe.make_absorbed _

/-- Unfolding of a single application of a constructed pipe. -/
theorem pipeApply_make (f : EFun) (v : PyVal) :
    pipeApply v (Pipe.make f) =
      ((maybe f (safe_iter v)).1.map flatten, (maybe f (safe_iter v)).2) := by
  rcases h : maybe f (safe_iter v) with ⟨o, w⟩
  cases o <;> simp [pipeApply, Pipe.make, h]

theorem pipeApply_safe_iter (v : PyVal) (p : Pipe) :
    pipeApply (safe_iter v) p = pipeApply v p := by
  simp [pipeApply, safe_iter_idem]

/-- The value returned by a successful pipe application is a fixed point
of `flatten`. -/
theorem pipeApply_flatten_fix {v : PyVal} {p : Pipe} {r : PyVal} {w : Nat}
    (h : pipeApply v p = (some r, w)) : flatten r = r := by
  rw [pipeApply] at h
  rcases h2 : p.function (safe_iter v) with ⟨o, w0⟩
  cases o with
  | none => rw [h2] at h; simp at h
  | some r0 =>
      rw [h2] at h
      simp at h
      rw [← h.1, flatten_flatten]

theorem pipeApply_absorbed {p : Pipe} (hp : p.Absorbed) (v : PyVal) :
    ∃ r w, pipeApply v p = (some r, w) := by
  rcases h2 : p.function (safe_iter v) with ⟨o, w0⟩
  cases o with
  | none =>
      have := hp (safe_iter v)
      rw [h2] at this
      simp at this
  | some r0 => exact ⟨flatten r0, w0, by simp [pipeApply, h2]⟩

/-- One step of folding the apply operation over a stage list: a fault
outcome is sticky, otherwise apply the next pipe and add its warnings. -/
def pipeStep (acc : Option PyVal × Nat) (p : Pipe) : Option PyVal × Nat :=
  match acc with
  | (some r, w) =>
      match pipeApply r p with
      | (some s, w2) => (some s, w + w2)
      | (none, w2) => (none, w + w2)
  | (none, w) => (none, w)

/-- Folding the apply operation left-to-right over a list of stages. -/
def applyChain (v : PyVal) (ps : List Pipe) : Option PyVal × Nat :=
  ps.foldl pipeStep (some v, 0)

/-- Left-to-right composition of a non-empty chain of stages, as written
in user code: `p | q1 | q2 | ...`. -/
def composeChain (p : Pipe) (ps : List Pipe) : Pipe := ps.foldl Pipe.comp p

theorem foldl_pipeStep_none (ps : List Pipe) (w : Nat) :
    ps.foldl pipeStep (none, w) = (none, w) := by
  induction ps with
  | nil => rfl
  | cons p ps ih => simp [List.foldl_cons, pipeStep, ih]

/-- Associativity of observable behaviour for one composition: applying
`p.comp q` to a value equals applying `p` then `q` left-to-right,
provided both pipes carry absorbed functions (as every pipe built by the
library does). -/
theorem pipeApply_comp_eq {p q : Pipe} (hp : p.Absorbed) (hq : q.Absorbed)
    (v : PyVal) : pipeApply v (p.comp q) = applyChain v [p, q] := by
  obtain ⟨r1, w1, h1⟩ := pipeApply_absorbed hp v
  obtain ⟨r2, w2, h2⟩ := pipeApply_absorbed hq r1
  have hfix2 : flatten r2 = r2 := pipeApply_flatten_fix h2
  have hg : pipeApply (safe_iter v) p = (some r1, w1) := by
    rw [pipeApply_safe_iter]; exact h1
  rw [Pipe.comp, pipeApply_make]
  rw [show maybe (fun it =>
        match pipeApply it p with
        | (some r, w1) =>
            match pipeApply r q with
            | (some s, w2) => (some s, w1 + w2)
            | (none, w2) => (none, w1 + w2)
        | (none, w1) => (none, w1)) (safe_iter v) = (some r2, w1 + w2) from by
      rw [maybe]
      simp only [hg, h2]]
  simp [applyChain, pipeStep, h1, h2, hfix2]

/-- Associativity for a whole chain: applying the left-to-right
composition of `p :: ps` equals folding the apply operation over the
stage list, for pipes with absorbed functions. -/
theorem pipeApply_composeChain (ps : List Pipe) :
    ∀ p : Pipe, p.Absorbed → (∀ q ∈ ps, q.Absorbed) → ∀ v : PyVal,
      pipeApply v (composeChain p ps) = applyChain v (p :: ps) := by
  induction ps with
  | nil =>
      intro p hp _ v
      obtain ⟨r, w, h⟩ := pipeApply_absorbed hp v
      simp [composeChain, applyChain, pipeStep, h]
  | cons q rest ih =>
      intro p hp hqs v
      have hq : q.Absorbed := hqs q (by simp)
      have hrest : ∀ x ∈ rest, x.Absorbed := fun x hx => hqs x (by simp [hx])
      have h1 : composeChain p (q :: rest) = composeChain (p.comp q) rest := by
        simp [composeChain]
      rw [h1, ih (p.comp q) (Pipe.comp_absorbed p q) hrest v]
      simp only [applyChain, List.foldl_cons]
      congr 1
      obtain ⟨r1, w1, h1'⟩ := pipeApply_absorbed hp v
      obtain ⟨r2, w2, h2'⟩ := pipeApply_absorbed hq r1
      have hcomp := pipeApply_comp_eq hp hq v
      have hrhs : applyChain v [p, q] = (some r2, w1 + w2) := by
        simp [applyChain, pipeStep, h1', h2']
      rw [show pipeStep (some v, 0) (p.comp q) = (some r2, 0 + (w1 + w2)) from by
        simp [pipeStep, hcomp, hrhs]]
      simp [pipeStep, h1', h2']

/-- C1: for every function `f` and value `v`, the apply operator
`v | Pipe(f)` evaluates `flatten(maybe(f)(safe_iter(v)))`: the input is
normalized by `safe_iter`, the fault-absorbed wrapped function is called
on the normalized value, and the result is flattened before being
returned (with the warnings emitted by the absorbed call). -/
theorem claim_C1_pipe_apply (f : EFun) (v : PyVal) :
    pipeApply v (Pipe.make f) =
      ((maybe f (safe_iter v)).1.map flatten, (maybe f (safe_iter v)).2) :=
  pipeApply_make f v

/-- C2: pipe composition is associative in observable behaviour: for all
wrapped functions, applying `Pipe(f) | Pipe(g)` to a value equals
chaining the two applications left-to-right, and applying the
left-to-right composition of `N` constructed stages equals folding the
apply operation over the stage list. -/
theorem claim_C2_compose_assoc :
    (∀ (f g : EFun) (v : PyVal),
        pipeApply v ((Pipe.make f).comp (Pipe.make g)) =
          applyChain v [Pipe.make f, Pipe.make g]) ∧
    (∀ (f : EFun) (fs : List EFun) (v : PyVal),
        pipeApply v (composeChain (Pipe.make f) (fs.map Pipe.make)) =
          applyChain v (Pipe.make f :: fs.map Pipe.make)) := by
  constructor
  · intro f g v
    exact pipeApply_comp_eq (Pipe.make_absorbed f) (Pipe.make_absorbed g) v
  · intro f fs v
    refine pipeApply_composeChain (fs.map Pipe.make) (Pipe.make f)
      (Pipe.make_absorbed f) ?_ v
    intro q hq
    obtain ⟨g, hg, rfl⟩ := List.mem_map.mp hq
    exact Pipe.make_absorbed g

/-- C4: flattening a singleton wrapping of a sequence equals flattening
the sequence itself (so `[[[x]]]` collapses all the way down), while a
sequence with at least two elements flattens each element independently
without merging siblings. -/
theorem claim_C4_flatten_singleton :
    (∀ xs : List PyVal,
        flatten (PyVal.list [PyVal.list xs]) = flatten (PyVal.list xs)) ∧
    (∀ (x y : PyVal) (rest : List PyVal),
        flatten (PyVal.list (x :: y :: rest)) =
          PyVal.list ((x :: y :: rest).map flatten)) := by
  constructor
  · intro xs
    rw [flatten]
    have h2 : safe_iter (PyVal.list xs) = PyVal.list (safe_iterList xs) := by
      rw [safe_iter]
    have h1 : safe_iter (PyVal.list [PyVal.list xs]) =
        PyVal.list [PyVal.list (safe_iterList xs)] := by
      rw [safe_iter, safe_iterList, safe_iterList, h2]
    rw [h1, flattenN]
    simp only [List.isEmpty_nil, isList, Bool.and_self, if_true, Bool.and_true]
    rw [← h2, flatten_safe_iter]
  · intro x y rest
    rw [flatten]
    have h1 : safe_iter (PyVal.list (x :: y :: rest)) =
        PyVal.list (safe_iter x :: safe_iter y :: rest.map safe_iter) := by
      rw [safe_iter, safe_iterList, safe_iterList, safe_iterList_eq_map]
    rw [h1, flattenN]
    simp only [List.isEmpty_cons, Bool.false_and, Bool.false_eq_true,
      if_false, flattenList, flattenList_eq_map, List.map_cons, List.map_map,
      PyVal.list.injEq, List.cons.injEq]
    refine ⟨flatten_safe_iter x, flatten_safe_iter y, ?_⟩
    refine List.map_congr_left (fun z hz => ?_)
    simp [Function.comp, flatten_safe_iter z]

/-- C5 (amended): normalizing a set produces a set of recursively
normalized elements when they are all hashable; otherwise it falls back
to an ordered sequence (a list) whose elements are still recursively
normalized — not a set of un-normalized elements — and no fault
propagates (the function is total). -/
theorem claim_C5_set_normalization (xs : List PyVal) :
    safe_iter (PyVal.set xs) =
      (if (xs.map safe_iter).all hashable then PyVal.set (xs.map safe_iter)
       else PyVal.list (xs.map safe_iter)) ∧
    ∀ y ∈ xs.map safe_iter, safe_iter y = y := by
  constructor
  · rw [safe_iter, safe_iterList_eq_map, hashableList_eq_all]
  · intro y hy
    obtain ⟨x, hx, rfl⟩ := List.mem_map.mp hy
    exact safe_iter_idem x

/-- C5 counterexample: for the set containing the tuple `(1, 2)`,
normalization of the element produces an unhashable list, and the
fallback yields a LIST of normalized elements — not, as claimed, a set
whose elements are left un-normalized. -/
theorem claim_C5_counterexample :
    safe_iter (PyVal.set [PyVal.tuple [PyVal.int 1, PyVal.int 2]]) =
      PyVal.list [PyVal.list [PyVal.int 1, PyVal.int 2]] ∧
    safe_iter (PyVal.set [PyVal.tuple [PyVal.int 1, PyVal.int 2]]) ≠
      PyVal.set [PyVal.tuple [PyVal.int 1, PyVal.int 2]] := by
  have h : safe_iter (PyVal.set [PyVal.tuple [PyVal.int 1, PyVal.int 2]]) =
      PyVal.list [PyVal.list [PyVal.int 1, PyVal.int 2]] := by
    simp [safe_iter, safe_iterList, hashableList, hashable]
  exact ⟨h, by rw [h]; simp⟩

/-- Iteration over a Python value, as performed by `map(...)`,
`list(...)` and `functools.reduce`: lists, sets and tuples yield their
elements, dicts their keys, strings their characters; ints and `None`
are not iterable and make the caller raise `TypeError` (`none`). -/
def pyIter : PyVal → Option (List PyVal)
  | .list xs => some xs
  | .set xs => some xs
  | .tuple xs => some xs
  | .dict kvs => some (kvs.map Prod.fst)
  | .str s => some (s.toList.map (fun c => PyVal.str (String.mk [c])))
  | .int _ => none
  | .pynone => none

/-- An identity test against the `None` object, as in `x is not None`. -/
def isNone : PyVal → Bool
  | .pynone => true
  | _ => false

/-- Forcing `map(maybe(f), elems)`: each element is passed to the
absorbed function (which never raises); the results and the emitted
warning counts are collected in input order. -/
def mapAbsorbed (f : EFun) : List PyVal → List PyVal × Nat
  | [] => ([], 0)
  | x :: xs =>
      ((maybe f x).1.getD PyVal.pynone :: (mapAbsorbed f xs).1,
        (maybe f x).2 + (mapAbsorbed f xs).2)

/-- Embedding of the body of `p_map` for a plain (non-`Pipe`) function
(pipe_utils.py line 176): `map(maybe(function), iterable) | filter_none`.
The lazy `map` object is forced by the `safe_iter` of the `filter_none`
application, which normalizes each absorbed result; `filter_none` drops
results that are `None`; the apply operator then flattens the surviving
list.  A non-iterable input makes `map()` raise `TypeError` (`none`). -/
def p_map_raw (f : EFun) (v : PyVal) : Option PyVal × Nat :=
  match pyIter v with
  | none => (none, 0)
  | some elems =>
      (some (flatten (PyVal.list
          (((mapAbsorbed f elems).1.map safe_iter).filter
            (fun r => !(isNone r))))),
        (mapAbsorbed f elems).2)

/-- Embedding of `p_map(f)`: `Pipe.__call__` wraps the partially applied
body in a fresh `Pipe(...)` constructor call, so the stored function is
`maybe(lambda x: maybe(p_map_body)(x, f))`. -/
def p_map_pipe (f : EFun) : Pipe := Pipe.make (maybe (p_map_raw f))

/-- Direct description of the mapped results that survive `filter_none`:
each input element is normalized, passed to the absorbed function, the
result is normalized again, and `None` results are dropped, preserving
input order. -/
def p_map_survivors (f : EFun) (xs : List PyVal) : List PyVal :=
  (xs.map (fun x => safe_iter ((maybe f (safe_iter x)).1.getD
    PyVal.pynone))).filter (fun r => !(isNone r))

/-- Total number of warnings emitted while mapping `f` over `xs`. -/
def p_map_warnings (f : EFun) (xs : List PyVal) : Nat :=
  (xs.map (fun x => (maybe f (safe_iter x)).2)).sum

theorem mapAbsorbed_eq (f : EFun) (xs : List PyVal) :
    mapAbsorbed f xs =
      (xs.map (fun x => (maybe f x).1.getD PyVal.pynone),
        (xs.map (fun x => (maybe f x).2)).sum) := by
  induction xs with
  | nil => simp [mapAbsorbed]
  | cons x xs ih => simp [mapAbsorbed, ih]

/-- Evaluation of a full `xs | p_map(f)` application on a list. -/
theorem p_map_apply_eq (f : EFun) (xs : List PyVal) :
    pipeApply (PyVal.list xs) (p_map_pipe f) =
      (some (flatten (PyVal.list (p_map_survivors f xs))),
        p_map_warnings f xs) := by
  have hn : safe_iter (PyVal.list xs) = PyVal.list (xs.map safe_iter) := by
    rw [safe_iter, safe_iterList_eq_map]
  have hraw : p_map_raw f (PyVal.list (xs.map safe_iter)) =
      (some (flatten (PyVal.list (p_map_survivors f xs))),
        p_map_warnings f xs) := by
    rw [p_map_raw]
    simp only [pyIter, mapAbsorbed_eq, List.map_map]
    rw [p_map_survivors, p_map_warnings]
    rfl
  rw [p_map_pipe, pipeApply, Pipe.make]
  simp only [hn]
  rw [show maybe (maybe (p_map_raw f)) (PyVal.list (xs.map safe_iter)) =
      (some (flatten (PyVal.list (p_map_survivors f xs))),
        p_map_warnings f xs) from by
    rw [maybe, maybe, hraw]]
  simp [flatten_flatten]

theorem maybe_maybe (f : EFun) : maybe (maybe f) = maybe f := by
  funext v
  rcases h : f v with ⟨o, w⟩
  cases o <;> simp [maybe, h]

/-- C3 (amended): `xs | p_map(f)` never raises for any function and any
sequence, and its value is the flattening of the list of surviving
normalized results: the result of the absorbed call on each normalized
element, in input order, with results equal to the `None` sentinel
dropped — which removes exactly the faulting elements and, in addition,
the elements whose call legitimately returned `None`. -/
theorem claim_C3_p_map (f : EFun) (xs : List PyVal) :
    ((pipeApply (PyVal.list xs) (p_map_pipe f)).1).isSome ∧
    pipeApply (PyVal.list xs) (p_map_pipe f) =
      (some (flatten (PyVal.list (p_map_survivors f xs))),
        p_map_warnings f xs) := by
  refine ⟨?_, p_map_apply_eq f xs⟩
  rw [p_map_apply_eq]
  simp

/-- A function that never faults and always returns the `None` object. -/
def constNone : EFun := fun _ => (some PyVal.pynone, 0)

/-- C3 counterexample: for `f` returning `None` without any fault and
`xs = [0]`, the claim as stated requires the element to be present in
the output, but the output of `[0] | p_map(f)` is the empty list (and
no warning is emitted, confirming no fault occurred). -/
theorem claim_C3_counterexample :
    (constNone (PyVal.int 0)).1 = some PyVal.pynone ∧
    pipeApply (PyVal.list [PyVal.int 0]) (p_map_pipe constNone) =
      (some (PyVal.list []), 0) := by
  refine ⟨rfl, ?_⟩
  rw [p_map_apply_eq]
  simp [p_map_survivors, p_map_warnings, constNone, maybe, safe_iter,
    safe_iterList, isNone, flatten, flattenN]

/-- C10 (amended): a legitimately computed `None` is indistinguishable
from an absorbed fault at the public interface — replacing `f` by its
fault-absorbed version changes nothing, including warnings — and the
filtered list of mapped results never contains `None`.  (The final
`flatten` of a sole surviving list element can still expose `None`
values nested inside it; see the counterexample.) -/
theorem claim_C10_none_dropped (f : EFun) (xs : List PyVal) :
    pipeApply (PyVal.list xs) (p_map_pipe f) =
      pipeApply (PyVal.list xs) (p_map_pipe (maybe f)) ∧
    PyVal.pynone ∉ p_map_survivors f xs := by
  constructor
  · have hmapAbs : mapAbsorbed (maybe f) = mapAbsorbed f := by
      funext l
      induction l with
      | nil => simp [mapAbsorbed]
      | cons x lxs ih => simp [mapAbsorbed, maybe_maybe, ih]
    have h1 : p_map_raw (maybe f) = p_map_raw f := by
      funext v
      rw [p_map_raw, p_map_raw, hmapAbs]
    rw [p_map_pipe, p_map_pipe, h1]
  · intro hmem
    have h2 := List.mem_filter.mp hmem
    simp [isNone] at h2

/-- A function that never faults and returns the list containing two
`None` objects. -/
def constListNones : EFun :=
  fun _ => (some (PyVal.list [PyVal.pynone, PyVal.pynone]), 0)

/-- C10 counterexample: for `f` returning `[None, None]` on the single
element `0`, the sole surviving result is a list, the final `flatten`
collapses the singleton wrapper, and the public output of
`[0] | p_map(f)` is `[None, None]` — so the output CAN contain `None`,
contrary to the claim. -/
theorem claim_C10_counterexample :
    pipeApply (PyVal.list [PyVal.int 0]) (p_map_pipe constListNones) =
      (some (PyVal.list [PyVal.pynone, PyVal.pynone]), 0) ∧
    PyVal.pynone ∈ [PyVal.pynone, PyVal.pynone] := by
  refine ⟨?_, by simp⟩
  rw [p_map_apply_eq]
  simp [p_map_survivors, p_map_warnings, constListNones, maybe, safe_iter,
    safe_iterList, isNone, flatten, flattenN, flattenList, isList]

/-- Model of a binary Python callable handed to `reduce`: it may raise
(`none`) and may emit warnings. -/
abbrev BFun : Type := PyVal → PyVal → Option PyVal × Nat

/-- Embedding of `functools.reduce(f, x :: xs)` after the first element
has been taken as the initial accumulator: a left fold in which a fault
raised by `f` propagates. -/
def reduceAux (f : BFun) (acc : PyVal) : List PyVal → Option PyVal × Nat
  | [] => (some acc, 0)
  | x :: xs =>
      match f acc x with
      | (some r, w) => ((reduceAux f r xs).1, w + (reduceAux f r xs).2)
      | (none, w) => (none, w)

/-- Embedding of the body of `p_reduce` (pipe_utils.py line 199):
`list(functools.reduce(function, iterable))`.  `reduce` raises
`TypeError` on a non-iterable or empty iterable; the surrounding
`list(...)` call iterates the fold value and raises `TypeError` when
that value is not iterable. -/
def p_reduce_raw (f : BFun) (v : PyVal) : Option PyVal × Nat :=
  match pyIter v with
  | none => (none, 0)
  | some [] => (none, 0)
  | some (x :: xs) =>
      match reduceAux f x xs with
      | (some acc, w) =>
          match pyIter acc with
          | none => (none, w)
          | some elems => (some (PyVal.list elems), w)
      | (none, w) => (none, w)

/-- Embedding of `p_reduce(f)`: partial application through
`Pipe.__call__` wraps the absorbed body in a fresh `Pipe(...)` call. -/
def p_reduce_pipe (f : BFun) : Pipe := Pipe.make (maybe (p_reduce_raw f))

/-- C6: reducing an empty sequence returns the `None` sentinel rather
than propagating the `TypeError` raised by `functools.reduce`, and emits
exactly one warning. -/
theorem claim_C6_reduce_empty (f : BFun) :
    pipeApply (PyVal.list []) (p_reduce_pipe f) =
      (some PyVal.pynone, 1) := by
  have hn : safe_iter (PyVal.list []) = PyVal.list [] := by
    rw [safe_iter, safe_iterList]
  have hfl : flatten PyVal.pynone = PyVal.pynone := by
    rw [flatten]
    rw [show safe_iter PyVal.pynone = PyVal.pynone from by rw [safe_iter]]
    simp [flattenN]
  rw [p_reduce_pipe, pipeApply_make, hn]
  rw [show maybe (maybe (p_reduce_raw f)) (PyVal.list []) =
      (some PyVal.pynone, 1) from rfl]
  simp [hfl]

/-- C7 (amended): for a non-empty sequence, when the left fold of `f`
over the normalized elements (first element as initial accumulator)
succeeds with an iterable value, `xs | p_reduce(f)` returns the
flattened `list(...)` of that fold value, with the warnings emitted
during the fold.  (When the fold value is not iterable, the surrounding
`list(...)` raises, the pipe absorbs the fault, and the result is the
`None` sentinel instead — see the counterexample.) -/
theorem claim_C7_p_reduce (f : BFun) (x : PyVal) (xs : List PyVal)
    (acc : PyVal) (w : Nat) (elems : List PyVal)
    (h1 : reduceAux f (safe_iter x) (xs.map safe_iter) = (some acc, w))
    (h2 : pyIter acc = some elems) :
    pipeApply (PyVal.list (x :: xs)) (p_reduce_pipe f) =
      (some (flatten (PyVal.list elems)), w) := by
  have hn : safe_iter (PyVal.list (x :: xs)) =
      PyVal.list (safe_iter x :: xs.map safe_iter) := by
    rw [safe_iter, safe_iterList, safe_iterList_eq_map]
  have hp : pyIter (PyVal.list (safe_iter x :: xs.map safe_iter)) =
      some (safe_iter x :: xs.map safe_iter) := rfl
  have hraw : p_reduce_raw f (PyVal.list (safe_iter x :: xs.map safe_iter)) =
      (some (PyVal.list elems), w) := by
    rw [p_reduce_raw]
    simp only [hp, h1, h2]
  rw [p_reduce_pipe, pipeApply_make, hn]
  rw [show maybe (maybe (p_reduce_raw f))
      (PyVal.list (safe_iter x :: xs.map safe_iter)) =
      (some (PyVal.list elems), w) from by
    rw [maybe, maybe, hraw]]
  simp

/-- A binary function concatenating two Python lists. -/
def listConcat : BFun := fun a b =>
  match a, b with
  | PyVal.list la, PyVal.list lb => (some (PyVal.list (la ++ lb)), 0)
  | _, _ => (none, 0)

/-- Witness for C7 (amended): reducing `[[1], [2]]` with list
concatenation returns the flattened list `[1, 2]`. -/
theorem claim_C7_witness :
    pipeApply (PyVal.list [PyVal.list [PyVal.int 1], PyVal.list [PyVal.int 2]])
        (p_reduce_pipe listConcat) =
      (some (flatten (PyVal.list [PyVal.int 1, PyVal.int 2])), 0) := by
  have h1 : reduceAux listConcat (safe_iter (PyVal.list [PyVal.int 1]))
      ([PyVal.list [PyVal.int 2]].map safe_iter) =
      (some (PyVal.list [PyVal.int 1, PyVal.int 2]), 0) := by
    simp [safe_iter, safe_iterList, reduceAux, listConcat]
  exact claim_C7_p_reduce listConcat (PyVal.list [PyVal.int 1])
    [PyVal.list [PyVal.int 2]] (PyVal.list [PyVal.int 1, PyVal.int 2]) 0
    [PyVal.int 1, PyVal.int 2] h1 rfl

/-- A binary function adding two Python ints. -/
def intAdd : BFun := fun a b =>
  match a, b with
  | PyVal.int m, PyVal.int n => (some (PyVal.int (m + n)), 0)
  | _, _ => (none, 0)

/-- C7 counterexample: the left fold of integer addition over `[1, 2]`
is `3`, but `[1, 2] | p_reduce(add)` returns the `None` sentinel with a
warning, because `list(3)` raises `TypeError` — not the fold value the
claim requires. -/
theorem claim_C7_counterexample :
    reduceAux intAdd (PyVal.int 1) [PyVal.int 2] =
      (some (PyVal.int 3), 0) ∧
    pipeApply (PyVal.list [PyVal.int 1, PyVal.int 2])
        (p_reduce_pipe intAdd) = (some PyVal.pynone, 1) ∧
    PyVal.pynone ≠ PyVal.int 3 := by
  refine ⟨by simp [reduceAux, intAdd], ?_, by simp⟩
  have hn : safe_iter (PyVal.list [PyVal.int 1, PyVal.int 2]) =
      PyVal.list [PyVal.int 1, PyVal.int 2] := by
    rw [safe_iter, safe_iterList, safe_iterList, safe_iterList]
    rw [safe_iter, safe_iter]
  have hfl : flatten PyVal.pynone = PyVal.pynone := by
    rw [flatten]
    rw [show safe_iter PyVal.pynone = PyVal.pynone from by rw [safe_iter]]
    simp [flattenN]
  rw [p_reduce_pipe, pipeApply_make, hn]
  rw [show maybe (maybe (p_reduce_raw intAdd))
      (PyVal.list [PyVal.int 1, PyVal.int 2]) =
      (some PyVal.pynone, 1) from rfl]
  simp [hfl]

/-- A filesystem path: an absolute flag plus components, which may
include the special entries "." and "..". -/
structure PyPath where
  absolute : Bool
  comps : List String

/-- Embedding of `os.path.join(dir, member)`: an absolute second
argument discards the first. -/
def path_join (dir member : PyPath) : PyPath :=
  if member.absolute then member
  else { absolute := dir.absolute, comps := dir.comps ++ member.comps }

/-- Component normalization performed by `os.path.abspath`: "." is
dropped and ".." removes the preceding component (at the root it is
dropped). -/
def normalize_comps (cs : List String) : List String :=
  cs.foldl (fun acc c =>
    if c = "." then acc
    else if c = ".." then acc.dropLast
    else acc ++ [c]) []

/-- Embedding of `os.path.abspath` against the filesystem root. -/
def abspath (p : PyPath) : PyPath :=
  { absolute := true, comps := normalize_comps p.comps }

def renderComps : List String → List Char
  | [] => []
  | [c] => c.toList
  | c :: rest => c.toList ++ '/' :: renderComps rest

/-- String rendering of an absolute path, e.g. `/tmp/t`. -/
def render (p : PyPath) : List Char := '/' :: renderComps p.comps

/-- Embedding of `os.path.commonprefix`: the longest common STRING
prefix of the two rendered paths (not a component-wise prefix). -/
def commonprefix : List Char → List Char → List Char
  | x :: a, y :: b => if x = y then x :: commonprefix a b else []
  | _, _ => []

/-- Embedding of `is_within_directory` (uncompress_utils.py lines
21-28): character-level common prefix of the two absolute paths
compared against the directory. -/
def is_within_directory (directory target : PyPath) : Bool :=
  commonprefix (render (abspath directory)) (render (abspath target)) ==
    render (abspath directory)

/-- Embedding of `safe_extract` (uncompress_utils.py lines 30-37):
extraction proceeds (`true`) only when every member passes the
`is_within_directory` check against its joined path; otherwise the
exception "Attempted Path Traversal in Tar File" is raised (`false`). -/
def safe_extract_check (dest : PyPath) (members : List PyPath) : Bool :=
  members.all (fun m => is_within_directory dest (path_join dest m))

/-- Embedding of `unzip` (uncompress_utils.py lines 59-75): the member
list is used only to build the contents dictionary and
`ZipFile.extractall` is invoked unconditionally — no member path is
inspected and no traversal fault is ever raised. -/
def unzip_extracts (_dest : PyPath) (_members : List PyPath) : Bool := true

/-- Containment in the sense of the claim: the resolved target lies
inside the destination directory, component-wise. -/
def isUnder (dest target : PyPath) : Bool :=
  (abspath dest).comps.isPrefixOf (abspath target).comps

def destT : PyPath := { absolute := true, comps := ["tmp", "t"] }

def memberEvilTar : PyPath := { absolute := false, comps := ["..", "tevil"] }

def memberEvilZip : PyPath := { absolute := false, comps := ["..", "evil"] }

/-- C8 failing inputs: a tar member `../tevil` under destination
`/tmp/t` resolves to `/tmp/tevil`, outside the destination, yet
`safe_extract` accepts it because `/tmp/t` is a character-level prefix
of `/tmp/tevil`; and `unzip` performs no check at all, so the zip
member `../evil` (resolving to `/tmp/evil`) is never rejected by a
fault.  Both contradict the claim that extraction raises for every
member resolving outside the destination. -/
theorem claim_C8_traversal_bug :
    (isUnder destT (path_join destT memberEvilTar) = false ∧
      safe_extract_check destT [memberEvilTar] = true) ∧
    (isUnder destT (path_join destT memberEvilZip) = false ∧
      unzip_extracts destT [memberEvilZip] = true) := by
  refine ⟨⟨?_, ?_⟩, ?_, ?_⟩ <;> decide

/-- Outcome of one FTP `retrbinary` attempt. -/
inductive FTPOutcome where
  | ok
  | transientErr
  | eofErr
  | fatal

/-- Embedding of `FTPConnection.download` (connection_utils.py lines
80-89) over a trace of per-attempt outcomes: on `error_temp` or
`EOFError` the client reconnects and calls `download` recursively —
with no retry bound; a success or any other fault ends the call.  The
result is the number of attempts made and whether the final attempt
succeeded; `none` models a trace exhausted while the code would still
be retrying. -/
def ftpDownload : List FTPOutcome → Option (Nat × Bool)
  | [] => none
  | FTPOutcome.ok :: _ => some (1, true)
  | FTPOutcome.fatal :: _ => some (1, false)
  | FTPOutcome.transientErr :: rest =>
      match ftpDownload rest with
      | some (n, b) => some (n + 1, b)
      | none => none
  | FTPOutcome.eofErr :: rest =>
      match ftpDownload rest with
      | some (n, b) => some (n + 1, b)
      | none => none

/-- C9 (amended): on every `error_temp`/`EOFError` fault the FTP
download reconnects and retries recursively, with no retry bound: every
attempt before the last in a completed call failed with a
transient/EOF fault, and the call ends at the first success or the
first non-transient fault (which propagates).  This is the only
fault-triggered retry in the connection module. -/
theorem claim_C9_ftp_retry (os : List FTPOutcome) (n : Nat) (b : Bool)
    (h : ftpDownload os = some (n, b)) :
    1 ≤ n ∧ n ≤ os.length ∧
    (∀ i, i + 1 < n →
      os[i]? = some FTPOutcome.transientErr ∨
      os[i]? = some FTPOutcome.eofErr) ∧
    ((b = true ∧ os[n - 1]? = some FTPOutcome.ok) ∨
     (b = false ∧ os[n - 1]? = some FTPOutcome.fatal)) := by
  induction os generalizing n b with
  | nil => simp [ftpDownload] at h
  | cons o rest ih =>
      cases o with
      | ok =>
          rw [ftpDownload] at h
          simp only [Option.some.injEq, Prod.mk.injEq] at h
          obtain ⟨rfl, rfl⟩ := h
          refine ⟨by omega, by simp, fun i hi => by omega, ?_⟩
          left
          exact ⟨rfl, by simp⟩
      | fatal =>
          rw [ftpDownload] at h
          simp only [Option.some.injEq, Prod.mk.injEq] at h
          obtain ⟨rfl, rfl⟩ := h
          refine ⟨by omega, by simp, fun i hi => by omega, ?_⟩
          right
          exact ⟨rfl, by simp⟩
      | transientErr =>
          rw [ftpDownload] at h
          rcases hrec : ftpDownload rest with _ | p
          · rw [hrec] at h; simp at h
          · obtain ⟨m, b'⟩ := p
            rw [hrec] at h
            simp only [Option.some.injEq, Prod.mk.injEq] at h
            obtain ⟨rfl, rfl⟩ := h
            obtain ⟨ih1, ih2, ih3, ih4⟩ := ih m b' hrec
            refine ⟨by omega, by simp; omega, ?_, ?_⟩
            · intro i hi
              cases i with
              | zero => left; simp
              | succ j =>
                  simp only [List.getElem?_cons_succ]
                  exact ih3 j (by omega)
            · have hm : m + 1 - 1 = m := by omega
              rw [hm]
              rcases Nat.exists_eq_add_of_le ih1 with ⟨k, hk⟩
              subst hk
              simp only [List.getElem?_cons_succ, Nat.add_comm 1 k] at ih4 ⊢
              simpa using ih4
      | eofErr =>
          rw [ftpDownload] at h
          rcases hrec : ftpDownload rest with _ | p
          · rw [hrec] at h; simp at h
          · obtain ⟨m, b'⟩ := p
            rw [hrec] at h
            simp only [Option.some.injEq, Prod.mk.injEq] at h
            obtain ⟨rfl, rfl⟩ := h
            obtain ⟨ih1, ih2, ih3, ih4⟩ := ih m b' hrec
            refine ⟨by omega, by simp; omega, ?_, ?_⟩
            · intro i hi
              cases i with
              | zero => right; simp
              | succ j =>
                  simp only [List.getElem?_cons_succ]
                  exact ih3 j (by omega)
            · have hm : m + 1 - 1 = m := by omega
              rw [hm]
              rcases Nat.exists_eq_add_of_le ih1 with ⟨k, hk⟩
              subst hk
              simp only [List.getElem?_cons_succ, Nat.add_comm 1 k] at ih4 ⊢
              simpa using ih4

/-- Witness for C9 (amended): one transient fault followed by a success
gives a completed download in two attempts, the first attempt being the
transient fault and the last the success. -/
theorem claim_C9_witness :
    1 ≤ 2 ∧
    2 ≤ ([FTPOutcome.transientErr, FTPOutcome.ok] : List FTPOutcome).length ∧
    (∀ i, i + 1 < 2 →
      ([FTPOutcome.transientErr, FTPOutcome.ok] : List FTPOutcome)[i]? =
        some FTPOutcome.transientErr ∨
      ([FTPOutcome.transientErr, FTPOutcome.ok] : List FTPOutcome)[i]? =
        some FTPOutcome.eofErr) ∧
    ((true = true ∧
      ([FTPOutcome.transientErr, FTPOutcome.ok] : List FTPOutcome)[2 - 1]? =
        some FTPOutcome.ok) ∨
     (true = false ∧
      ([FTPOutcome.transientErr, FTPOutcome.ok] : List FTPOutcome)[2 - 1]? =
        some FTPOutcome.fatal)) :=
  claim_C9_ftp_retry [FTPOutcome.transientErr, FTPOutcome.ok] 2 true rfl

/-- C9 counterexample: after two consecutive transient faults the code
retries a second time and succeeds on the third attempt — more than the
single reconnect-and-retry the claim allows. -/
theorem claim_C9_counterexample :
    ftpDownload
        [FTPOutcome.transientErr, FTPOutcome.transientErr, FTPOutcome.ok] =
      some (3, true) ∧ 2 < 3 :=
  ⟨rfl, by omega⟩
